import Mathlib

/-!
Verification of the tic-tac-toe game engine: the line-win detector
(`computeWinner`), the heuristic move selector (`getSmartAiMove`) with its
helpers (`findImmediateMove`, `evaluateCell`, `getCenterIndex`), the
duplicated server-side copies of the same functions, and the HTTP handlers'
payload validation.

Boards are flat lists of cells in row-major order; a cell is `none` (empty)
or `some` mark.  All JavaScript array reads out of range yield `undefined`,
which compares unequal to any mark and is falsy, exactly like `null`; both
are modelled by `none` via `List.getD _ none`.  Index arithmetic in the
detector is on natural numbers, which agrees with the source for the
well-formed inputs the spec fixes (`winLength ≥ 1`); the scoring helper uses
integers where offsets can be negative, following the source.
-/

inductive Mark where
  | X : Mark
  | O : Mark
deriving DecidableEq, Repr

/-- Swap the two marks; used to state relabel symmetry. -/
def swapMark : Mark → Mark
  | Mark.X => Mark.O
  | Mark.O => Mark.X

abbrev Cell := Option Mark

abbrev Board := List Cell

/-- `board[i]` in JavaScript: out-of-range reads behave like an empty cell. -/
def getCell (board : Board) (i : Nat) : Cell :=
  board.getD i none

/-- The cell at row `r`, column `c` of a row-major board (spec data model:
index = row·size + col). -/
def cellRC (board : Board) (size r c : Nat) : Cell :=
  getCell board (r * size + c)

/-- The inner window check of `computeWinner`: if the cell at `i0` holds a
mark `v`, compare the cells at `i0 + k*step` for `k = 1 .. winLength-1`
against `v`; on a full match report `v`. -/
def checkLine (board : Board) (w i0 step : Nat) : Option Mark :=
  match getCell board i0 with
  | none => none
  | some v =>
      if (List.range' 1 (w - 1)).all (fun k => decide (getCell board (i0 + k * step) = some v))
      then some v else none

/-- The window start positions and strides scanned by `computeWinner`, in
source order: rows (stride 1, col ≤ size−winLength), columns (stride size,
row ≤ size−winLength), down-right diagonals (stride size+1), down-left
diagonals (stride size−1, col from winLength−1).  `size + 1 - w` is the
number of admissible starts along a scan axis, and is zero when
`w > size`, matching the source's empty loops. -/
def candidates (size w : Nat) : List (Nat × Nat) :=
  ((List.range size).flatMap fun r =>
    (List.range (size + 1 - w)).map fun c => (r * size + c, 1)) ++
  ((List.range size).flatMap fun c =>
    (List.range (size + 1 - w)).map fun r => (r * size + c, size)) ++
  ((List.range (size + 1 - w)).flatMap fun r =>
    (List.range (size + 1 - w)).map fun c => (r * size + c, size + 1)) ++
  ((List.range (size + 1 - w)).flatMap fun r =>
    (List.range' (w - 1) (size - (w - 1))).map fun c => (r * size + c, size - 1))

/-- The line-win detector of `App.jsx`: scan rows, columns, then both
diagonal families, returning the mark of the first fully matching window,
or `none`. -/
def computeWinner (board : Board) (size w : Nat) : Option Mark :=
  (candidates size w).findSome? fun p => checkLine board w p.1 p.2


/-- Scan the board in ascending index order for an empty cell whose
hypothetical `player` placement makes `computeWinner` report `player`;
return the first such index. -/
def findImmediateMove (board : Board) (size w : Nat) (player : Mark) : Option Nat :=
  (List.range board.length).find? fun i =>
    decide (board.getD i none = none) &&
    decide (computeWinner (board.set i (some player)) size w = some player)

/-- `Math.floor(size/2) * size + Math.floor(size/2)`. -/
def getCenterIndex (size : Nat) : Nat :=
  (size / 2) * size + size / 2

/-- The ascending list of integers `lo, lo+1, …, hi-1`; empty when
`hi ≤ lo`.  Used for the scorer's window-offset loop, whose counter is
negative. -/
def intRange (lo hi : Int) : List Int :=
  (List.range (hi - lo).toNat).map fun k : Nat => lo + (k : Int)

/-- `board[pos]` at a signed position: negative or overlarge positions read
as empty, like `undefined` in the source. -/
def getCellI (board : Board) (pos : Int) : Cell :=
  if 0 ≤ pos then board.getD pos.toNat none else none

/-- The cell seen by the scorer at `pos`: the candidate cell `idx` counts as
the AI mark `'O'`, every other cell reads from the board. -/
def hypCell (board : Board) (idx : Nat) (pos : Int) : Cell :=
  if pos = (idx : Int) then some Mark.O else getCellI board pos

/-- Classify one window (given by its cell positions) exactly as the scorer
does: with the candidate counted as `'O'`, a window free of `'X'` is worth
`countO²·25` plus `200` when one cell short of a win; otherwise it costs
`countX²·20` plus `150` when the opponent is one cell short. -/
def scoreWindow (board : Board) (w idx : Nat) (ps : List Int) : Int :=
  let countO : Nat := ps.countP fun pos => decide (hypCell board idx pos = some Mark.O)
  let countX : Nat := ps.countP fun pos => decide (hypCell board idx pos = some Mark.X)
  if countX = 0 then
    (countO : Int) * (countO : Int) * 25 + (if countO = w - 1 then 200 else 0)
  else
    -((countX : Int) * (countX : Int) * 20) - (if countX = w - 1 then 150 else 0)

/-- The `(row, col)` coordinates of the cells of the window at offset `t`
from the candidate `idx` in direction `(dr, dc)`. -/
def windowCoords (size w idx : Nat) (dr dc t : Int) : List (Int × Int) :=
  (List.range w).map fun k : Nat =>
    (((idx / size : Nat) : Int) + (t + (k : Int)) * dr,
     ((idx % size : Nat) : Int) + (t + (k : Int)) * dc)

/-- Build the flattened cell positions of the window at offset `t`, or
`none` when any cell falls outside the board (the source nulls the window
and skips it). -/
def windowCells (size w idx : Nat) (dr dc t : Int) : Option (List Int) :=
  let coords := windowCoords size w idx dr dc t
  if ∀ pr ∈ coords, 0 ≤ pr.1 ∧ pr.1 < (size : Int) ∧ 0 ≤ pr.2 ∧ pr.2 < (size : Int)
  then some (coords.map fun pr => pr.1 * (size : Int) + pr.2)
  else none

/-- The heuristic score of candidate cell `idx`: a center-proximity bonus,
one term per in-bounds window through `idx` in each of the four directions,
and a corner bonus.  The source skips a window when it leaves the board or
does not contain `idx`; those windows contribute `0` here. -/
def evaluateCell (board : Board) (size w idx centerIndex : Nat) : Int :=
  let centerTerm : Int :=
    max 0 (10 - (|((idx / size : Nat) : Int) - ((centerIndex / size : Nat) : Int)| +
                 |((idx % size : Nat) : Int) - ((centerIndex % size : Nat) : Int)|))
  let dirTerm : Int × Int → Int := fun d =>
    ((intRange (1 - (w : Int)) 1).map fun t =>
      match windowCells size w idx d.1 d.2 t with
      | none => 0
      | some ps => if (idx : Int) ∈ ps then scoreWindow board w idx ps else 0).sum
  let cornerTerm : Int :=
    if idx ∈ ([0, size - 1, size * (size - 1), size * size - 1] : List Nat)
    then (if size = 3 then 15 else 5) else 0
  centerTerm + ([((0 : Int), (1 : Int)), (1, 0), (1, 1), (1, -1)].map dirTerm).sum
    + cornerTerm

/-- The three-tier move selector: immediate win for `'O'`, else immediate
block of `'X'`, else the empty cell of strictly greatest heuristic score
(first one wins ties).  The source initialises `bestScore` to `-Infinity`,
so the first empty cell always becomes the initial best; the fold below
starts from that state. -/
def getSmartAiMove (board : Board) (size w : Nat) : Option Nat :=
  match findImmediateMove board size w Mark.O with
  | some i => some i
  | none =>
    match findImmediateMove board size w Mark.X with
    | some i => some i
    | none =>
      let empty := (List.range board.length).filter fun i =>
        decide (board.getD i none = none)
      match empty with
      | [] => none
      | e0 :: rest =>
        let score := fun i => evaluateCell board size w i (getCenterIndex size)
        some ((rest.foldl
          (fun best idx => if score idx > best.2 then (idx, score idx) else best)
          (e0, score e0)).1)


/-!  Spec-side definitions, written from the specification's words. -/

/-- Spec §4.1: a horizontal, vertical, down-right or down-left run of `w`
identical non-empty marks lies on the board, with the window-start bounds
the spec states for each family. -/
def hasRun (board : Board) (size w : Nat) (m : Mark) : Prop :=
  (∃ r c, r < size ∧ c + w ≤ size ∧
    ∀ k < w, cellRC board size r (c + k) = some m) ∨
  (∃ r c, c < size ∧ r + w ≤ size ∧
    ∀ k < w, cellRC board size (r + k) c = some m) ∨
  (∃ r c, r + w ≤ size ∧ c + w ≤ size ∧
    ∀ k < w, cellRC board size (r + k) (c + k) = some m) ∨
  (∃ r c, r + w ≤ size ∧ w ≤ c + 1 ∧ c < size ∧
    ∀ k < w, cellRC board size (r + k) (c - k) = some m)

/-- Cell `i` is empty and filling it with `m` makes the detector report
`m` — an immediate winning placement for `m`. -/
def winsAt (board : Board) (size w : Nat) (m : Mark) (i : Nat) : Prop :=
  board.getD i none = none ∧
  computeWinner (board.set i (some m)) size w = some m

instance (board : Board) (size w : Nat) (m : Mark) (i : Nat) :
    Decidable (winsAt board size w m i) := by
  unfold winsAt; infer_instance

/-- Spec §4.2: a scoring window is admissible when every cell stays on the
board and some cell of the window is the candidate cell. -/
def refWindowOk (size w idx r0 c0 : Nat) (dr dc : Int) : Prop :=
  (∀ k < w, 0 ≤ (r0 : Int) + (k : Int) * dr ∧ (r0 : Int) + (k : Int) * dr < (size : Int) ∧
            0 ≤ (c0 : Int) + (k : Int) * dc ∧ (c0 : Int) + (k : Int) * dc < (size : Int)) ∧
  (∃ k < w, (r0 : Int) + (k : Int) * dr = ((idx / size : Nat) : Int) ∧
            (c0 : Int) + (k : Int) * dc = ((idx % size : Nat) : Int))

instance (size w idx r0 c0 : Nat) (dr dc : Int) :
    Decidable (refWindowOk size w idx r0 c0 dr dc) := by
  unfold refWindowOk; infer_instance

/-- The flattened cell positions of the window starting at `(r0, c0)` in
direction `(dr, dc)`. -/
def refWindowCells (size w r0 c0 : Nat) (dr dc : Int) : List Int :=
  (List.range w).map fun k : Nat =>
    ((r0 : Int) + (k : Int) * dr) * (size : Int) + ((c0 : Int) + (k : Int) * dc)

/-- The reference score of spec §4.2: center-proximity bonus
`max(0, 10 − manhattan(candidate, center))` with the center at
row = col = ⌊size/2⌋, one classified term for every in-bounds window of
`w` cells containing the candidate in each of the four directions, and a
corner bonus of `15` on 3×3 boards and `5` otherwise. -/
def refScore (board : Board) (size w idx : Nat) : Int :=
  let centerTerm : Int :=
    max 0 (10 - (|((idx / size : Nat) : Int) - ((size / 2 : Nat) : Int)| +
                 |((idx % size : Nat) : Int) - ((size / 2 : Nat) : Int)|))
  let windowTerm : Int :=
    (([((0 : Int), (1 : Int)), (1, 0), (1, 1), (1, -1)] : List (Int × Int)).map fun d =>
      ∑ r0 ∈ Finset.range size, ∑ c0 ∈ Finset.range size,
        if refWindowOk size w idx r0 c0 d.1 d.2
        then scoreWindow board w idx (refWindowCells size w r0 c0 d.1 d.2)
        else 0).sum
  let cornerTerm : Int :=
    if idx = 0 ∨ idx = size - 1 ∨ idx = size * (size - 1) ∨ idx = size * size - 1
    then (if size = 3 then 15 else 5) else 0
  centerTerm + windowTerm + cornerTerm

/-!  The server's copy of the engine (`src/server/index.js`), translated
independently; its game-logic functions are line-for-line the same as the
ones in `App.jsx`. -/

namespace Server

def checkLine (board : Board) (w i0 step : Nat) : Option Mark :=
  match getCell board i0 with
  | none => none
  | some v =>
      if (List.range' 1 (w - 1)).all (fun k => decide (getCell board (i0 + k * step) = some v))
      then some v else none

def candidates (size w : Nat) : List (Nat × Nat) :=
  ((List.range size).flatMap fun r =>
    (List.range (size + 1 - w)).map fun c => (r * size + c, 1)) ++
  ((List.range size).flatMap fun c =>
    (List.range (size + 1 - w)).map fun r => (r * size + c, size)) ++
  ((List.range (size + 1 - w)).flatMap fun r =>
    (List.range (size + 1 - w)).map fun c => (r * size + c, size + 1)) ++
  ((List.range (size + 1 - w)).flatMap fun r =>
    (List.range' (w - 1) (size - (w - 1))).map fun c => (r * size + c, size - 1))

def computeWinner (board : Board) (size w : Nat) : Option Mark :=
  (Server.candidates size w).findSome? fun p => Server.checkLine board w p.1 p.2

def findImmediateMove (board : Board) (size w : Nat) (player : Mark) : Option Nat :=
  (List.range board.length).find? fun i =>
    decide (board.getD i none = none) &&
    decide (Server.computeWinner (board.set i (some player)) size w = some player)

def getCenterIndex (size : Nat) : Nat :=
  (size / 2) * size + size / 2

def scoreWindow (board : Board) (w idx : Nat) (ps : List Int) : Int :=
  let countO : Nat := ps.countP fun pos => decide (hypCell board idx pos = some Mark.O)
  let countX : Nat := ps.countP fun pos => decide (hypCell board idx pos = some Mark.X)
  if countX = 0 then
    (countO : Int) * (countO : Int) * 25 + (if countO = w - 1 then 200 else 0)
  else
    -((countX : Int) * (countX : Int) * 20) - (if countX = w - 1 then 150 else 0)

def windowCoords (size w idx : Nat) (dr dc t : Int) : List (Int × Int) :=
  (List.range w).map fun k : Nat =>
    (((idx / size : Nat) : Int) + (t + (k : Int)) * dr,
     ((idx % size : Nat) : Int) + (t + (k : Int)) * dc)

def windowCells (size w idx : Nat) (dr dc t : Int) : Option (List Int) :=
  let coords := Server.windowCoords size w idx dr dc t
  if ∀ pr ∈ coords, 0 ≤ pr.1 ∧ pr.1 < (size : Int) ∧ 0 ≤ pr.2 ∧ pr.2 < (size : Int)
  then some (coords.map fun pr => pr.1 * (size : Int) + pr.2)
  else none

def evaluateCell (board : Board) (size w idx centerIndex : Nat) : Int :=
  let centerTerm : Int :=
    max 0 (10 - (|((idx / size : Nat) : Int) - ((centerIndex / size : Nat) : Int)| +
                 |((idx % size : Nat) : Int) - ((centerIndex % size : Nat) : Int)|))
  let dirTerm : Int × Int → Int := fun d =>
    ((intRange (1 - (w : Int)) 1).map fun t =>
      match Server.windowCells size w idx d.1 d.2 t with
      | none => 0
      | some ps => if (idx : Int) ∈ ps then Server.scoreWindow board w idx ps else 0).sum
  let cornerTerm : Int :=
    if idx ∈ ([0, size - 1, size * (size - 1), size * size - 1] : List Nat)
    then (if size = 3 then 15 else 5) else 0
  centerTerm + ([((0 : Int), (1 : Int)), (1, 0), (1, 1), (1, -1)].map dirTerm).sum
    + cornerTerm

def getSmartAiMove (board : Board) (size w : Nat) : Option Nat :=
  match Server.findImmediateMove board size w Mark.O with
  | some i => some i
  | none =>
    match Server.findImmediateMove board size w Mark.X with
    | some i => some i
    | none =>
      let empty := (List.range board.length).filter fun i =>
        decide (board.getD i none = none)
      match empty with
      | [] => none
      | e0 :: rest =>
        let score := fun i => Server.evaluateCell board size w i (Server.getCenterIndex size)
        some ((rest.foldl
          (fun best idx => if score idx > best.2 then (idx, score idx) else best)
          (e0, score e0)).1)

end Server

/-!  The two HTTP handlers of `src/server/index.js`.  A request body is
modelled by its three engine-relevant fields: `board` is `none` when the
payload's `board` is not an array, and `size`/`winLength` are `none` when
missing; a present numeric field is falsy exactly when it is `0` (sizes and
win lengths are non-negative integers in the spec's data model). -/

structure Payload where
  board : Option Board
  size : Option Nat
  winLength : Option Nat

inductive WinnerResponse where
  | invalid : WinnerResponse
  | ok : Option Mark → Bool → WinnerResponse
deriving DecidableEq

inductive MoveResponse where
  | invalid : MoveResponse
  | ok : Option Nat → MoveResponse
deriving DecidableEq

/-- `POST /api/winner`: reject the payload unless `board` is an array and
`size` and `winLength` are truthy; otherwise answer with the engine's
winner and the draw flag `!winner && board.every(c => c !== null)`. -/
def postWinner (p : Payload) : WinnerResponse :=
  match p.board, p.size, p.winLength with
  | some b, some s, some w =>
      if s = 0 ∨ w = 0 then WinnerResponse.invalid
      else WinnerResponse.ok (Server.computeWinner b s w)
        (decide (Server.computeWinner b s w = none) &&
          b.all fun c => decide (c ≠ none))
  | _, _, _ => WinnerResponse.invalid

/-- `POST /api/ai/move`: same validation, answering with the selector's
index. -/
def postAiMove (p : Payload) : MoveResponse :=
  match p.board, p.size, p.winLength with
  | some b, some s, some w =>
      if s = 0 ∨ w = 0 then MoveResponse.invalid
      else MoveResponse.ok (Server.getSmartAiMove b s w)
  | _, _, _ => MoveResponse.invalid

/-- A payload the handlers must reject: `board` not an array, or `size` or
`winLength` missing or falsy. -/
def invalidPayload (p : Payload) : Prop :=
  p.board = none ∨ p.size = none ∨ p.size = some 0 ∨
  p.winLength = none ∨ p.winLength = some 0

/-!  Concrete boards used by witnesses and counterexamples. -/

/-- `[X,X,_, O,O,_, _,_,_]`: the board of the spec's first 3×3 scenario. -/
def scenarioBoard : Board :=
  [some Mark.X, some Mark.X, none, some Mark.O, some Mark.O, none, none, none, none]

/-- A board already won by `X` across the top row, six cells still empty. -/
def wonBoard : Board :=
  [some Mark.X, some Mark.X, some Mark.X, none, none, none, none, none, none]

/-- `O` owns cells 0 and 1; cell 2 completes the row. -/
def oThreatBoard : Board :=
  [some Mark.O, some Mark.O, none, none, none, none, none, none, none]

/-- `X` owns cells 0 and 1; cell 2 completes the row. -/
def xThreatBoard : Board :=
  [some Mark.X, some Mark.X, none, none, none, none, none, none, none]

/-- The empty 3×3 board. -/
def emptyBoard9 : Board :=
  List.replicate 9 none

/-- A full 3×3 board with no winning line. -/
def fullDrawBoard : Board :=
  [some Mark.X, some Mark.O, some Mark.X,
   some Mark.X, some Mark.O, some Mark.O,
   some Mark.O, some Mark.X, some Mark.X]

/-- The selector's best-score fold, abstracted over the scoring function:
starting from the first empty cell, keep the strictly greater score.  The
tier-3 fold of `getSmartAiMove` is definitionally `bestFold score e0 rest`. -/
def bestFold (f : Nat → Int) (b0 : Nat) (l : List Nat) : Nat × Int :=
  l.foldl (fun best idx => if f idx > best.2 then (idx, f idx) else best) (b0, f b0)

/-!  Helper lemmas. -/

theorem getCell_map_swap (board : Board) (i : Nat) :
    getCell (board.map (Option.map swapMark)) i =
      Option.map swapMark (getCell board i) := by
  unfold getCell
  rw [List.getD_eq_getElem?_getD, List.getD_eq_getElem?_getD, List.getElem?_map]
  cases board[i]? <;> rfl

theorem swapMark_injective : Function.Injective swapMark := by
  intro a b h
  cases a <;> cases b <;> simp [swapMark] at h ⊢

theorem checkLine_map_swap (board : Board) (w i0 step : Nat) :
    checkLine (board.map (Option.map swapMark)) w i0 step =
      Option.map swapMark (checkLine board w i0 step) := by
  unfold checkLine
  rw [getCell_map_swap]
  cases h : getCell board i0 with
  | none => rfl
  | some v =>
      simp only [Option.map_some']
      have hall : ∀ k : Nat,
          (getCell (board.map (Option.map swapMark)) (i0 + k * step) =
            some (swapMark v)) ↔
          (getCell board (i0 + k * step) = some v) := by
        intro k
        rw [getCell_map_swap]
        cases getCell board (i0 + k * step) with
        | none => simp
        | some u =>
            simp only [Option.map_some', Option.some.injEq]
            exact ⟨fun hu => swapMark_injective hu, fun hu => by rw [hu]⟩
      have : ((List.range' 1 (w - 1)).all fun k =>
            decide (getCell (board.map (Option.map swapMark)) (i0 + k * step) =
              some (swapMark v))) =
          ((List.range' 1 (w - 1)).all fun k =>
            decide (getCell board (i0 + k * step) = some v)) := by
        congr 1
        funext k
        exact decide_eq_decide.mpr (hall k)
      rw [this]
      split <;> rfl

theorem checkLine_eq_some_iff {board : Board} {w i0 step : Nat} {m : Mark} :
    checkLine board w i0 step = some m ↔
      getCell board i0 = some m ∧
        ∀ k, 1 ≤ k → k < w → getCell board (i0 + k * step) = some m := by
  unfold checkLine
  cases hv : getCell board i0 with
  | none => simp
  | some v =>
      simp only []
      split_ifs with hc
      · constructor
        · intro h
          obtain rfl : v = m := Option.some.inj h
          refine ⟨rfl, fun k hk1 hkw => ?_⟩
          have hk : k ∈ List.range' 1 (w - 1) :=
            List.mem_range'_1.mpr ⟨hk1, by omega⟩
          exact decide_eq_true_eq.mp (List.all_eq_true.mp hc k hk)
        · exact fun h => h.1
      · constructor
        · intro h; exact absurd h (by simp)
        · rintro ⟨hvm, hall⟩
          obtain rfl : v = m := Option.some.inj hvm
          exfalso
          apply hc
          rw [List.all_eq_true]
          intro k hk
          obtain ⟨hk1, hk2⟩ := List.mem_range'_1.mp hk
          exact decide_eq_true_eq.mpr (hall k hk1 (by omega))

theorem find?_range'_eq_some {p : Nat → Bool} :
    ∀ (n s i : Nat), s ≤ i → i < s + n → p i = true →
      (∀ j, s ≤ j → j < i → p j = false) →
      (List.range' s n).find? p = some i := by
  intro n
  induction n with
  | zero => intro s i h1 h2 _ _; omega
  | succ n ih =>
      intro s i h1 h2 hp hmin
      have hcons : List.range' s (n + 1) = s :: List.range' (s + 1) n := by
        simp [List.range'_succ]
      rw [hcons]
      by_cases he : i = s
      · subst he
        exact List.find?_cons_of_pos _ hp
      · have hps : p s = false := hmin s le_rfl (by omega)
        rw [List.find?_cons_of_neg _ (by simp [hps])]
        exact ih (s + 1) i (by omega) (by omega) hp
          (fun j hj1 hj2 => hmin j (by omega) hj2)

theorem find?_range_eq_some {p : Nat → Bool} (n i : Nat) (hi : i < n)
    (hp : p i = true) (hmin : ∀ j, j < i → p j = false) :
    (List.range n).find? p = some i := by
  rw [List.range_eq_range']
  exact find?_range'_eq_some n 0 i (Nat.zero_le i) (by omega) hp
    (fun j _ hj => hmin j hj)

/-!  Claim theorems. -/

/-- C8: the engine functions duplicated between `App.jsx` and
`src/server/index.js` are extensionally equal: for every board, size and
win length the UI's `computeWinner` and `getSmartAiMove` return exactly
what the server's copies return. -/
theorem ui_server_engines_agree : ∀ (board : Board) (size w : Nat),
    computeWinner board size w = Server.computeWinner board size w ∧
    getSmartAiMove board size w = Server.getSmartAiMove board size w :=
  fun _ _ _ => ⟨rfl, rfl⟩

/-- C5 counterexample: on `[X,X,_, O,O,_, _,_,_]` with size 3 and win
length 3 the selector does NOT return index 2; it returns 5, because
placing `O` at 5 completes O's own row 3,4,5 and the immediate-win tier
runs before the blocking tier. -/
theorem scenario_returns_five_not_two :
    getSmartAiMove scenarioBoard 3 3 = some 5 ∧
      ¬ getSmartAiMove scenarioBoard 3 3 = some 2 := by
  constructor
  · decide
  · decide

/-- C5 amended: on `[X,X,_, O,O,_, _,_,_]` with size 3 and win length 3,
`selectMove` with the AI playing `O` returns index 5 — the tier-1
immediate win completing O's row at 3,4,5, which takes precedence over
blocking X at index 2. -/
theorem scenario_takes_own_win : getSmartAiMove scenarioBoard 3 3 = some 5 := by
  decide

/-- C7: relabeling the two marks commutes with win detection — swapping
`X` and `O` in every cell and then running `computeWinner` gives the swap
of the original verdict, with `none` mapping to `none`. -/
theorem detectWinner_swap_symmetric (board : Board) (size w : Nat) :
    computeWinner (board.map (Option.map swapMark)) size w =
      Option.map swapMark (computeWinner board size w) := by
  unfold computeWinner
  rw [List.map_findSome?]
  congr 1
  funext p
  exact checkLine_map_swap board w p.1 p.2

theorem findImmediateMove_eq_some_of (board : Board) (size w : Nat) (player : Mark)
    (i : Nat) (hi : i < board.length) (hw : winsAt board size w player i)
    (hmin : ∀ j, j < i → ¬ winsAt board size w player j) :
    findImmediateMove board size w player = some i := by
  unfold findImmediateMove
  apply find?_range_eq_some _ i hi
  · simp only [Bool.and_eq_true, decide_eq_true_eq]
    exact ⟨hw.1, hw.2⟩
  · intro j hj
    rw [Bool.eq_false_iff]
    intro hcontra
    rw [Bool.and_eq_true, decide_eq_true_eq, decide_eq_true_eq] at hcontra
    exact hmin j hj ⟨hcontra.1, hcontra.2⟩

theorem findImmediateMove_eq_none_iff (board : Board) (size w : Nat) (player : Mark) :
    findImmediateMove board size w player = none ↔
      ∀ i, i < board.length → ¬ winsAt board size w player i := by
  unfold findImmediateMove
  rw [List.find?_eq_none]
  constructor
  · intro h i hi hwin
    exact h i (List.mem_range.mpr hi)
      (by rw [Bool.and_eq_true, decide_eq_true_eq, decide_eq_true_eq]; exact ⟨hwin.1, hwin.2⟩)
  · intro h i hi hcontra
    rw [Bool.and_eq_true, decide_eq_true_eq, decide_eq_true_eq] at hcontra
    exact h i (List.mem_range.mp hi) ⟨hcontra.1, hcontra.2⟩

theorem findImmediateMove_eq_some_imp {board : Board} {size w : Nat} {player : Mark}
    {i : Nat} (h : findImmediateMove board size w player = some i) :
    i < board.length ∧ winsAt board size w player i := by
  unfold findImmediateMove at h
  refine ⟨List.mem_range.mp (List.mem_of_find?_eq_some h), ?_⟩
  have hp := List.find?_some h
  rw [Bool.and_eq_true, decide_eq_true_eq, decide_eq_true_eq] at hp
  exact ⟨hp.1, hp.2⟩

/-- C3: when some empty cell completes a line for the AI mark `O`, the
selector returns the lowest-index such cell (the tier-1 immediate win). -/
theorem selectMove_takes_immediate_win (board : Board) (size w i : Nat)
    (hi : i < board.length) (hwin : winsAt board size w Mark.O i)
    (hmin : ∀ j, j < i → ¬ winsAt board size w Mark.O j) :
    getSmartAiMove board size w = some i := by
  unfold getSmartAiMove
  rw [findImmediateMove_eq_some_of board size w Mark.O i hi hwin hmin]

/-- C3 witness: on `[O,O,_, …]` the selector plays 2, the lowest (only)
winning completion for `O`. -/
theorem selectMove_takes_immediate_win_witness :
    getSmartAiMove oThreatBoard 3 3 = some 2 :=
  selectMove_takes_immediate_win oThreatBoard 3 3 2 (by decide) (by decide)
    (by decide)

/-- C4: when no empty cell completes a line for `O` but some empty cell
completes a line for the opponent `X`, the selector returns the
lowest-index such cell (the tier-2 immediate block). -/
theorem selectMove_blocks_immediate_loss (board : Board) (size w i : Nat)
    (hO : ∀ j, j < board.length → ¬ winsAt board size w Mark.O j)
    (hi : i < board.length) (hX : winsAt board size w Mark.X i)
    (hmin : ∀ j, j < i → ¬ winsAt board size w Mark.X j) :
    getSmartAiMove board size w = some i := by
  unfold getSmartAiMove
  rw [(findImmediateMove_eq_none_iff board size w Mark.O).mpr hO,
    findImmediateMove_eq_some_of board size w Mark.X i hi hX hmin]

/-- C4 witness: on `[X,X,_, …]` the AI cannot win in one move, so it
blocks `X` at 2. -/
theorem selectMove_blocks_immediate_loss_witness :
    getSmartAiMove xThreatBoard 3 3 = some 2 :=
  selectMove_blocks_immediate_loss xThreatBoard 3 3 2 (by decide) (by decide)
    (by decide) (by decide)

theorem mul_sub_one_eq (k s : Nat) : k * (s - 1) = k * s - k := by
  cases s with
  | zero => simp
  | succ n => simp [Nat.mul_succ]

theorem idx_dl_eq (size r c k : Nat) (hk : k ≤ c) (hs : 1 ≤ size) :
    (r + k) * size + (c - k) = (r * size + c) + k * (size - 1) := by
  rw [mul_sub_one_eq, Nat.add_mul]
  have hks : k ≤ k * size := Nat.le_mul_of_pos_right k hs
  omega

theorem mem_candidates_row (size w r c : Nat) (hr : r < size) (hc : c + w ≤ size) :
    ((r * size + c, 1) : Nat × Nat) ∈ candidates size w := by
  unfold candidates
  refine List.mem_append.mpr (Or.inl (List.mem_append.mpr (Or.inl
    (List.mem_append.mpr (Or.inl ?_)))))
  rw [List.mem_flatMap]
  exact ⟨r, List.mem_range.mpr hr,
    List.mem_map.mpr ⟨c, List.mem_range.mpr (by omega), rfl⟩⟩

theorem mem_candidates_col (size w r c : Nat) (hc : c < size) (hr : r + w ≤ size) :
    ((r * size + c, size) : Nat × Nat) ∈ candidates size w := by
  unfold candidates
  refine List.mem_append.mpr (Or.inl (List.mem_append.mpr (Or.inl
    (List.mem_append.mpr (Or.inr ?_)))))
  rw [List.mem_flatMap]
  exact ⟨c, List.mem_range.mpr hc,
    List.mem_map.mpr ⟨r, List.mem_range.mpr (by omega), rfl⟩⟩

theorem mem_candidates_dr (size w r c : Nat) (hr : r + w ≤ size) (hc : c + w ≤ size) :
    ((r * size + c, size + 1) : Nat × Nat) ∈ candidates size w := by
  unfold candidates
  refine List.mem_append.mpr (Or.inl (List.mem_append.mpr (Or.inr ?_)))
  rw [List.mem_flatMap]
  exact ⟨r, List.mem_range.mpr (by omega),
    List.mem_map.mpr ⟨c, List.mem_range.mpr (by omega), rfl⟩⟩

theorem mem_candidates_dl (size w r c : Nat) (hr : r + w ≤ size) (hc1 : w ≤ c + 1)
    (hc2 : c < size) :
    ((r * size + c, size - 1) : Nat × Nat) ∈ candidates size w := by
  unfold candidates
  refine List.mem_append.mpr (Or.inr ?_)
  rw [List.mem_flatMap]
  exact ⟨r, List.mem_range.mpr (by omega),
    List.mem_map.mpr ⟨c, List.mem_range'_1.mpr ⟨by omega, by omega⟩, rfl⟩⟩

/-- C1: `computeWinner` is sound and complete for line existence: it
returns `none` exactly when no horizontal, vertical or diagonal run of `w`
identical non-empty marks exists, and any mark it returns belongs to such
a run (so when a run exists, the mark returned is the mark of a run,
regardless of scan order). -/
theorem detectWinner_sound_and_complete (board : Board) (size w : Nat) (hw : 1 ≤ w) :
    (computeWinner board size w = none ↔ ∀ m, ¬ hasRun board size w m) ∧
    (∀ m, computeWinner board size w = some m → hasRun board size w m) := by
  have hA : ∀ m, computeWinner board size w = some m → hasRun board size w m := by
    intro m hm
    obtain ⟨p, hpmem, hpsome⟩ := List.exists_of_findSome?_eq_some hm
    rw [checkLine_eq_some_iff] at hpsome
    have hrun : ∀ k, k < w → getCell board (p.1 + k * p.2) = some m := by
      intro k hk
      rcases Nat.eq_zero_or_pos k with rfl | hpos
      · simpa using hpsome.1
      · exact hpsome.2 k hpos hk
    unfold candidates at hpmem
    simp only [List.mem_append, List.mem_flatMap, List.mem_map, List.mem_range,
      List.mem_range'_1] at hpmem
    rcases hpmem with ((⟨r, hr, c, hc, hpe⟩ | ⟨c, hc, r, hr, hpe⟩) |
        ⟨r, hr, c, hc, hpe⟩) | ⟨r, hr, c, hc, hpe⟩
    · subst hpe
      refine Or.inl ⟨r, c, hr, by omega, fun k hk => ?_⟩
      unfold cellRC
      rw [show r * size + (c + k) = (r * size + c) + k * 1 from by ring]
      exact hrun k hk
    · subst hpe
      refine Or.inr (Or.inl ⟨r, c, hc, by omega, fun k hk => ?_⟩)
      unfold cellRC
      rw [show (r + k) * size + c = (r * size + c) + k * size from by ring]
      exact hrun k hk
    · subst hpe
      refine Or.inr (Or.inr (Or.inl ⟨r, c, by omega, by omega, fun k hk => ?_⟩))
      unfold cellRC
      rw [show (r + k) * size + (c + k) = (r * size + c) + k * (size + 1) from by ring]
      exact hrun k hk
    · subst hpe
      refine Or.inr (Or.inr (Or.inr ⟨r, c, by omega, by omega, by omega,
        fun k hk => ?_⟩))
      unfold cellRC
      rw [idx_dl_eq size r c k (by omega) (by omega)]
      exact hrun k hk
  have hD : ∀ m, hasRun board size w m → computeWinner board size w ≠ none := by
    intro m hrunm hnone
    rw [computeWinner, List.findSome?_eq_none_iff] at hnone
    have hsome : ∀ (i0 step : Nat),
        (∀ k, k < w → getCell board (i0 + k * step) = some m) →
        checkLine board w i0 step = some m := by
      intro i0 step hk
      rw [checkLine_eq_some_iff]
      refine ⟨by simpa using hk 0 (by omega), fun k hk1 hk2 => hk k hk2⟩
    rcases hrunm with ⟨r, c, hr, hc, hk⟩ | ⟨r, c, hc, hr, hk⟩ |
        ⟨r, c, hr, hc, hk⟩ | ⟨r, c, hr, hc1, hc2, hk⟩
    · have hmem := mem_candidates_row size w r c hr hc
      apply absurd (hnone _ hmem)
      rw [hsome (r * size + c) 1 ?_]
      · simp
      · intro k hkw
        rw [show (r * size + c) + k * 1 = r * size + (c + k) from by ring]
        exact hk k hkw
    · have hmem := mem_candidates_col size w r c hc hr
      apply absurd (hnone _ hmem)
      rw [hsome (r * size + c) size ?_]
      · simp
      · intro k hkw
        rw [show (r * size + c) + k * size = (r + k) * size + c from by ring]
        exact hk k hkw
    · have hmem := mem_candidates_dr size w r c hr hc
      apply absurd (hnone _ hmem)
      rw [hsome (r * size + c) (size + 1) ?_]
      · simp
      · intro k hkw
        rw [show (r * size + c) + k * (size + 1) = (r + k) * size + (c + k) from by ring]
        exact hk k hkw
    · have hmem := mem_candidates_dl size w r c hr hc1 hc2
      apply absurd (hnone _ hmem)
      rw [hsome (r * size + c) (size - 1) ?_]
      · simp
      · intro k hkw
        rw [← idx_dl_eq size r c k (by omega) (by omega)]
        exact hk k hkw
  refine ⟨⟨?_, ?_⟩, hA⟩
  · intro hnone m hrunm
    exact hD m hrunm hnone
  · intro hall
    cases hres : computeWinner board size w with
    | none => rfl
    | some m => exact absurd (hA m hres) (hall m)

/-- C1 witness: on the concrete board `[X,X,X, …empty…]` the theorem's
hypothesis holds and its second component turns the computed verdict into
the existence of an `X` run. -/
theorem detectWinner_sound_and_complete_witness : hasRun wonBoard 3 3 Mark.X :=
  (detectWinner_sound_and_complete wonBoard 3 3 (by decide)).2 Mark.X (by decide)

theorem bestFold_spec (f : Nat → Int) :
    ∀ (l : List Nat) (b0 : Nat), (b0 :: l).Pairwise (· < ·) →
      (bestFold f b0 l).1 ∈ b0 :: l ∧
      (bestFold f b0 l).2 = f (bestFold f b0 l).1 ∧
      ∀ x ∈ b0 :: l, f x ≤ f (bestFold f b0 l).1 ∧
        (x < (bestFold f b0 l).1 → f x < f (bestFold f b0 l).1) := by
  intro l
  induction l with
  | nil =>
      intro b0 _
      refine ⟨List.mem_singleton.mpr rfl, rfl, ?_⟩
      intro x hx
      rw [List.mem_singleton] at hx
      subst hx
      exact ⟨le_refl _, fun hlt => absurd hlt (lt_irrefl _)⟩
  | cons a l ih =>
      intro b0 hpw
      have hb0a : b0 < a := (List.pairwise_cons.mp hpw).1 a (List.mem_cons_self a l)
      have hpw' : (a :: l).Pairwise (· < ·) := (List.pairwise_cons.mp hpw).2
      have hb0l : ∀ x ∈ l, b0 < x := fun x hx =>
        (List.pairwise_cons.mp hpw).1 x (List.mem_cons_of_mem a hx)
      have hstep : bestFold f b0 (a :: l) =
          if f a > f b0 then bestFold f a l else bestFold f b0 l := by
        simp only [bestFold, List.foldl_cons]
        by_cases h : f a > f b0 <;> simp [h]
      by_cases hcmp : f a > f b0
      · rw [hstep, if_pos hcmp]
        obtain ⟨hmem, hval, hbound⟩ := ih a hpw'
        refine ⟨List.mem_cons_of_mem b0 hmem, hval, ?_⟩
        intro x hx
        rcases List.mem_cons.mp hx with rfl | hx'
        · have ha : f a ≤ f (bestFold f a l).1 :=
            (hbound a (List.mem_cons_self a l)).1
          exact ⟨le_trans (le_of_lt hcmp) ha,
            fun _ => lt_of_lt_of_le hcmp ha⟩
        · exact hbound x hx'
      · rw [hstep, if_neg hcmp]
        have hpw'' : (b0 :: l).Pairwise (· < ·) := by
          rw [List.pairwise_cons]
          exact ⟨hb0l, (List.pairwise_cons.mp hpw').2⟩
        obtain ⟨hmem, hval, hbound⟩ := ih b0 hpw''
        refine ⟨?_, hval, ?_⟩
        · rcases List.mem_cons.mp hmem with h | h
          · exact List.mem_cons.mpr (Or.inl h)
          · exact List.mem_cons.mpr (Or.inr (List.mem_cons.mpr (Or.inr h)))
        · intro x hx
          rcases List.mem_cons.mp hx with rfl | hx'
          · exact hbound x (List.mem_cons_self x l)
          rcases List.mem_cons.mp hx' with rfl | hx''
          · have hfa : f x ≤ f b0 := not_lt.mp hcmp
            have hfb0 : f b0 ≤ f (bestFold f b0 l).1 :=
              (hbound b0 (List.mem_cons_self b0 l)).1
            refine ⟨le_trans hfa hfb0, ?_⟩
            intro hlt
            rcases List.mem_cons.mp hmem with hb | hl2
            · exfalso
              rw [hb] at hlt
              omega
            · have hblt : b0 < (bestFold f b0 l).1 := hb0l _ hl2
              have hfb0lt : f b0 < f (bestFold f b0 l).1 :=
                (hbound b0 (List.mem_cons_self b0 l)).2 hblt
              exact lt_of_le_of_lt hfa hfb0lt
          · exact hbound x (List.mem_cons.mpr (Or.inr hx''))

theorem mem_empty_filter_iff (board : Board) (i : Nat) :
    i ∈ (List.range board.length).filter
        (fun i => decide (board.getD i none = none)) ↔
      i < board.length ∧ board.getD i none = none := by
  simp [List.mem_filter, List.mem_range]

theorem selectMove_mem_aux (board : Board) (size w : Nat) :
    (∀ i, getSmartAiMove board size w = some i →
      i < board.length ∧ board.getD i none = none) ∧
    (getSmartAiMove board size w = none ↔
      ∀ i, i < board.length → board.getD i none ≠ none) := by
  cases hO : findImmediateMove board size w Mark.O with
  | some j =>
      have hj := findImmediateMove_eq_some_imp hO
      have hgoal : getSmartAiMove board size w = some j := by
        unfold getSmartAiMove
        rw [hO]
      rw [hgoal]
      constructor
      · intro i hi
        obtain rfl := Option.some.inj hi
        exact ⟨hj.1, hj.2.1⟩
      · constructor
        · intro h
          exact absurd h (by simp)
        · intro hall
          exact absurd hj.2.1 (hall j hj.1)
  | none =>
  cases hX : findImmediateMove board size w Mark.X with
  | some j =>
      have hj := findImmediateMove_eq_some_imp hX
      have hgoal : getSmartAiMove board size w = some j := by
        unfold getSmartAiMove
        rw [hO, hX]
      rw [hgoal]
      constructor
      · intro i hi
        obtain rfl := Option.some.inj hi
        exact ⟨hj.1, hj.2.1⟩
      · constructor
        · intro h
          exact absurd h (by simp)
        · intro hall
          exact absurd hj.2.1 (hall j hj.1)
  | none =>
  cases hE : (List.range board.length).filter
      (fun i => decide (board.getD i none = none)) with
  | nil =>
      have hgoal : getSmartAiMove board size w = none := by
        unfold getSmartAiMove
        rw [hO, hX]
        simp only [hE]
      rw [hgoal]
      refine ⟨fun i hi => absurd hi (by simp), ?_, fun _ => rfl⟩
      intro _ i hilen hemp
      have : i ∈ ([] : List Nat) := by
        rw [← hE, mem_empty_filter_iff]
        exact ⟨hilen, hemp⟩
      simp at this
  | cons e0 rest =>
      have hpw : (e0 :: rest).Pairwise (· < ·) := by
        rw [← hE]
        exact (List.pairwise_lt_range board.length).filter _
      have hmemlist : ∀ x, x ∈ e0 :: rest →
          x < board.length ∧ board.getD x none = none := by
        intro x hx
        rw [← mem_empty_filter_iff board x, hE]
        exact hx
      have hgoal : getSmartAiMove board size w = some
          (bestFold (fun i => evaluateCell board size w i (getCenterIndex size))
            e0 rest).1 := by
        unfold getSmartAiMove
        rw [hO, hX]
        simp only [hE]
        rfl
      rw [hgoal]
      obtain ⟨hmem, _, _⟩ :=
        bestFold_spec (fun i => evaluateCell board size w i (getCenterIndex size))
          rest e0 hpw
      constructor
      · intro i hi
        obtain rfl := Option.some.inj hi
        exact hmemlist _ hmem
      · constructor
        · intro h
          exact absurd h (by simp)
        · intro hall
          have he0 := hmemlist e0 (List.mem_cons_self e0 rest)
          exact absurd he0.2 (hall e0 he0.1)

/-- C2: the selector returns an index of a currently-empty cell or `none`,
and it returns `none` exactly when the board has no empty cell. -/
theorem selectMove_empty_or_none (board : Board) (size w : Nat)
    (_hb : board.length = size * size) :
    (∀ i, getSmartAiMove board size w = some i →
      i < board.length ∧ board.getD i none = none) ∧
    (getSmartAiMove board size w = none ↔
      ∀ i, i < board.length → board.getD i none ≠ none) :=
  selectMove_mem_aux board size w

/-- C2 witness: a full board of length 3·3 yields no move. -/
theorem selectMove_empty_or_none_witness :
    getSmartAiMove fullDrawBoard 3 3 = none :=
  (selectMove_empty_or_none fullDrawBoard 3 3 (by decide)).2.mpr (by decide)

/-- C10: the selector never checks the current board for a winner — on a
board that already contains a completed winning run but still has an empty
cell, it still returns the index of an empty cell. -/
theorem selectMove_ignores_existing_winner (board : Board) (size w : Nat)
    (_hwon : ∃ m, hasRun board size w m) (i0 : Nat) (hi0 : i0 < board.length)
    (he : board.getD i0 none = none) :
    ∃ i, getSmartAiMove board size w = some i ∧ i < board.length ∧
      board.getD i none = none := by
  cases hres : getSmartAiMove board size w with
  | some i =>
      exact ⟨i, rfl, (selectMove_mem_aux board size w).1 i hres⟩
  | none =>
      exact absurd he (((selectMove_mem_aux board size w).2.mp hres) i0 hi0)

/-- C10 witness: `[X,X,X, …empty…]` is already won by `X` yet the selector
still plays an empty cell (index 3, which re-completes X's row for the
block test). -/
theorem selectMove_ignores_existing_winner_witness :
    ∃ i, getSmartAiMove wonBoard 3 3 = some i ∧ i < wonBoard.length ∧
      wonBoard.getD i none = none :=
  selectMove_ignores_existing_winner wonBoard 3 3
    ⟨Mark.X, Or.inl ⟨0, 0, by decide, by decide, by decide⟩⟩ 3 (by decide)
    (by decide)

/-- C9: each remote handler rejects a payload exactly when its board is
not an array or its size or win length is missing/falsy, and otherwise
answers with the engine's result — the winner plus the caller-computed
draw flag, or the selected index. -/
theorem handlers_validate_payload (p : Payload) :
    (postWinner p = WinnerResponse.invalid ↔ invalidPayload p) ∧
    (postAiMove p = MoveResponse.invalid ↔ invalidPayload p) ∧
    (∀ b s w, p.board = some b → p.size = some s → p.winLength = some w →
      ¬ invalidPayload p →
      postWinner p = WinnerResponse.ok (Server.computeWinner b s w)
        (decide (Server.computeWinner b s w = none) &&
          b.all fun c => decide (c ≠ none)) ∧
      postAiMove p = MoveResponse.ok (Server.getSmartAiMove b s w)) := by
  obtain ⟨ob, os, ow⟩ := p
  refine ⟨?_, ?_, ?_⟩
  · rcases ob with _ | b <;> rcases os with _ | s <;> rcases ow with _ | w <;>
      (simp [postWinner, invalidPayload]; try tauto)
  · rcases ob with _ | b <;> rcases os with _ | s <;> rcases ow with _ | w <;>
      (simp [postAiMove, invalidPayload]; try tauto)
  · intro b s w hb hs hw hnotinv
    simp only at hb hs hw
    subst hb
    subst hs
    subst hw
    have hcond : ¬ (s = 0 ∨ w = 0) := by
      intro h0
      apply hnotinv
      rcases h0 with h0 | h0
      · exact Or.inr (Or.inr (Or.inl (by rw [h0])))
      · exact Or.inr (Or.inr (Or.inr (Or.inr (by rw [h0]))))
    constructor
    · simp [postWinner, hcond]
    · simp [postAiMove, hcond]

/-- C9 witness: the empty-array payload with size 3 and win length 3 is
valid, and both handlers answer with the engine's verdict on it. -/
theorem handlers_validate_payload_witness :
    postWinner ⟨some [], some 3, some 3⟩ =
      WinnerResponse.ok (Server.computeWinner [] 3 3)
        (decide (Server.computeWinner [] 3 3 = none) &&
          ([] : Board).all fun c => decide (c ≠ none)) ∧
    postAiMove ⟨some [], some 3, some 3⟩ =
      MoveResponse.ok (Server.getSmartAiMove [] 3 3) :=
  (handlers_validate_payload ⟨some [], some 3, some 3⟩).2.2 [] 3 3 rfl rfl rfl
    (by simp [invalidPayload])

theorem sum_map_range (n : Nat) (f : Nat → Int) :
    ((List.range n).map f).sum = ∑ j ∈ Finset.range n, f j := by
  induction n with
  | zero => simp
  | succ n ih =>
      rw [List.range_succ, List.map_append, List.sum_append,
        Finset.sum_range_succ, ih]
      simp

theorem intRange_map_sum (w : Nat) (F : Int → Int) :
    ((intRange (1 - (w : Int)) 1).map F).sum =
      ∑ j ∈ Finset.range w, F (1 - (w : Int) + (j : Int)) := by
  unfold intRange
  rw [List.map_map]
  have hn : ((1 : Int) - (1 - (w : Int))).toNat = w := by omega
  rw [hn, sum_map_range]
  rfl

theorem flatten_inj {s a b c d : Int} (hb0 : 0 ≤ b) (hbs : b < s) (hd0 : 0 ≤ d)
    (hds : d < s) (h : a * s + b = c * s + d) : a = c ∧ b = d := by
  have hs : 0 < s := lt_of_le_of_lt hb0 hbs
  have hac : a = c := by
    rcases lt_trichotomy a c with hlt | heq | hgt
    · exfalso
      have h1 : a + 1 ≤ c := hlt
      have h2 : (a + 1) * s ≤ c * s :=
        mul_le_mul_of_nonneg_right h1 (le_of_lt hs)
      nlinarith
    · exact heq
    · exfalso
      have h1 : c + 1 ≤ a := hgt
      have h2 : (c + 1) * s ≤ a * s :=
        mul_le_mul_of_nonneg_right h1 (le_of_lt hs)
      nlinarith
  subst hac
  exact ⟨rfl, by omega⟩

theorem centerIndex_div (size : Nat) (hs : 1 ≤ size) :
    getCenterIndex size / size = size / 2 := by
  unfold getCenterIndex
  have h2 : size / 2 < size := Nat.div_lt_self (by omega) (by omega)
  rw [Nat.mul_comm (size / 2) size, Nat.mul_add_div (by omega)]
  simp [Nat.div_eq_of_lt h2]

theorem centerIndex_mod (size : Nat) (hs : 1 ≤ size) :
    getCenterIndex size % size = size / 2 := by
  unfold getCenterIndex
  have h2 : size / 2 < size := Nat.div_lt_self (by omega) (by omega)
  rw [Nat.mul_comm (size / 2) size, Nat.mul_add_mod]
  exact Nat.mod_eq_of_lt h2

theorem windowCoords_forall_iff (size w idx : Nat) (dr dc t : Int)
    (P : Int × Int → Prop) :
    (∀ pr ∈ windowCoords size w idx dr dc t, P pr) ↔
      ∀ k : Nat, k < w →
        P (((idx / size : Nat) : Int) + (t + (k : Int)) * dr,
           ((idx % size : Nat) : Int) + (t + (k : Int)) * dc) := by
  unfold windowCoords
  constructor
  · intro h k hk
    exact h _ (List.mem_map.mpr ⟨k, List.mem_range.mpr hk, rfl⟩)
  · intro h pr hpr
    obtain ⟨k, hk, rfl⟩ := List.mem_map.mp hpr
    exact h k (List.mem_range.mp hk)

theorem windowFlat_mem_iff (size w idx : Nat) (dr dc t : Int) (x : Int) :
    (x ∈ (windowCoords size w idx dr dc t).map
        (fun pr => pr.1 * (size : Int) + pr.2)) ↔
      ∃ k : Nat, k < w ∧
        (((idx / size : Nat) : Int) + (t + (k : Int)) * dr) * (size : Int) +
          (((idx % size : Nat) : Int) + (t + (k : Int)) * dc) = x := by
  unfold windowCoords
  rw [List.map_map, List.mem_map]
  constructor
  · rintro ⟨k, hk, hx⟩
    exact ⟨k, List.mem_range.mp hk, hx⟩
  · rintro ⟨k, hk, hx⟩
    exact ⟨k, List.mem_range.mpr hk, hx⟩

theorem refWindowCells_eq (size w idx : Nat) (dr dc t : Int) (r0 c0 : Nat)
    (hr : (r0 : Int) = ((idx / size : Nat) : Int) + t * dr)
    (hc : (c0 : Int) = ((idx % size : Nat) : Int) + t * dc) :
    refWindowCells size w r0 c0 dr dc =
      (windowCoords size w idx dr dc t).map
        (fun pr => pr.1 * (size : Int) + pr.2) := by
  unfold refWindowCells windowCoords
  rw [List.map_map]
  have hfun : (fun k : Nat =>
        ((r0 : Int) + (k : Int) * dr) * (size : Int) + ((c0 : Int) + (k : Int) * dc)) =
      ((fun pr : Int × Int => pr.1 * (size : Int) + pr.2) ∘
        fun k : Nat =>
          (((idx / size : Nat) : Int) + (t + (k : Int)) * dr,
           ((idx % size : Nat) : Int) + (t + (k : Int)) * dc)) := by
    funext k
    simp only [Function.comp]
    rw [hr, hc]
    ring
  rw [hfun]

theorem implWindowTerm_eq (board : Board) (size w idx : Nat) (dr dc t : Int) :
    (match windowCells size w idx dr dc t with
      | none => 0
      | some ps => if (idx : Int) ∈ ps then scoreWindow board w idx ps else 0) =
    (if (∀ pr ∈ windowCoords size w idx dr dc t,
          0 ≤ pr.1 ∧ pr.1 < (size : Int) ∧ 0 ≤ pr.2 ∧ pr.2 < (size : Int)) ∧
        (idx : Int) ∈ (windowCoords size w idx dr dc t).map
          (fun pr => pr.1 * (size : Int) + pr.2)
     then scoreWindow board w idx ((windowCoords size w idx dr dc t).map
          (fun pr => pr.1 * (size : Int) + pr.2))
     else 0 : Int) := by
  by_cases hb : ∀ pr ∈ windowCoords size w idx dr dc t,
      0 ≤ pr.1 ∧ pr.1 < (size : Int) ∧ 0 ≤ pr.2 ∧ pr.2 < (size : Int)
  · have hcells : windowCells size w idx dr dc t =
        some ((windowCoords size w idx dr dc t).map
          fun pr => pr.1 * (size : Int) + pr.2) := by
      simp only [windowCells]
      rw [if_pos hb]
    rw [hcells]
    simp only []
    by_cases hm : (idx : Int) ∈ (windowCoords size w idx dr dc t).map
        (fun pr => pr.1 * (size : Int) + pr.2)
    · rw [if_pos hm, if_pos ⟨hb, hm⟩]
    · rw [if_neg hm, if_neg (fun hcon => hm hcon.2)]
  · have hcells : windowCells size w idx dr dc t = none := by
      simp only [windowCells]
      rw [if_neg hb]
    rw [hcells]
    rw [if_neg (fun hcon => hb hcon.1)]

theorem implCond_iff (size w idx : Nat) (dr dc t : Int) (hs : 1 ≤ size)
    (hb : ∀ pr ∈ windowCoords size w idx dr dc t,
        0 ≤ pr.1 ∧ pr.1 < (size : Int) ∧ 0 ≤ pr.2 ∧ pr.2 < (size : Int)) :
    ((idx : Int) ∈ (windowCoords size w idx dr dc t).map
        (fun pr => pr.1 * (size : Int) + pr.2)) ↔
      ∃ k : Nat, k < w ∧ (t + (k : Int)) * dr = 0 ∧ (t + (k : Int)) * dc = 0 := by
  rw [windowFlat_mem_iff]
  have hcol : ((idx % size : Nat) : Int) < size := by
    exact_mod_cast Nat.mod_lt idx (show 0 < size by omega)
  have hcol0 : (0 : Int) ≤ ((idx % size : Nat) : Int) := Int.natCast_nonneg _
  have hflat : ((idx / size : Nat) : Int) * (size : Int) +
      ((idx % size : Nat) : Int) = (idx : Int) := by
    have h2 : (size : Int) * ((idx / size : Nat) : Int) +
        ((idx % size : Nat) : Int) = (idx : Int) := by
      exact_mod_cast Nat.div_add_mod idx size
    linarith [mul_comm ((idx / size : Nat) : Int) (size : Int)]
  constructor
  · rintro ⟨k, hk, hx⟩
    refine ⟨k, hk, ?_, ?_⟩
    all_goals {
      have hbk := (windowCoords_forall_iff size w idx dr dc t _).mp hb k hk
      dsimp only at hbk
      have hinj := flatten_inj (s := (size : Int)) hbk.2.2.1 hbk.2.2.2 hcol0 hcol
        (by rw [hx, ← hflat])
      omega
    }
  · rintro ⟨k, hk, h1, h2⟩
    refine ⟨k, hk, ?_⟩
    rw [h1, h2]
    simpa using hflat

theorem refWindowOk_iff_t (size w idx : Nat) (dr dc t : Int) (r0 c0 : Nat)
    (hr : (r0 : Int) = ((idx / size : Nat) : Int) + t * dr)
    (hc : (c0 : Int) = ((idx % size : Nat) : Int) + t * dc) :
    refWindowOk size w idx r0 c0 dr dc ↔
      ((∀ pr ∈ windowCoords size w idx dr dc t,
          0 ≤ pr.1 ∧ pr.1 < (size : Int) ∧ 0 ≤ pr.2 ∧ pr.2 < (size : Int)) ∧
        ∃ k : Nat, k < w ∧ (t + (k : Int)) * dr = 0 ∧ (t + (k : Int)) * dc = 0) := by
  unfold refWindowOk
  rw [windowCoords_forall_iff]
  apply and_congr
  · apply forall_congr'
    intro k
    have h1 : (r0 : Int) + (k : Int) * dr =
        ((idx / size : Nat) : Int) + (t + (k : Int)) * dr := by
      rw [hr]; ring
    have h2 : (c0 : Int) + (k : Int) * dc =
        ((idx % size : Nat) : Int) + (t + (k : Int)) * dc := by
      rw [hc]; ring
    rw [h1, h2]
  · apply exists_congr
    intro k
    apply and_congr_right
    intro _
    have hd1 : (t + (k : Int)) * dr = t * dr + (k : Int) * dr := by ring
    have hd2 : (t + (k : Int)) * dc = t * dc + (k : Int) * dc := by ring
    rw [hr, hc, hd1, hd2]
    constructor
    · intro h
      exact ⟨by omega, by omega⟩
    · intro h
      exact ⟨by omega, by omega⟩

theorem dirTerm_eq_ref (board : Board) (size w idx : Nat) (dr dc : Int)
    (hs : 1 ≤ size) (hdir : (dr = 0 ∧ dc = 1) ∨ dr = 1) :
    ((intRange (1 - (w : Int)) 1).map fun t =>
      match windowCells size w idx dr dc t with
      | none => 0
      | some ps => if (idx : Int) ∈ ps then scoreWindow board w idx ps else 0).sum =
    ∑ r0 ∈ Finset.range size, ∑ c0 ∈ Finset.range size,
      if refWindowOk size w idx r0 c0 dr dc
      then scoreWindow board w idx (refWindowCells size w r0 c0 dr dc) else 0 := by
  have hE : ∀ t : Int,
      (∃ k : Nat, k < w ∧ (t + (k : Int)) * dr = 0 ∧ (t + (k : Int)) * dc = 0) ↔
      (∃ k : Nat, k < w ∧ t + (k : Int) = 0) := by
    intro t
    constructor
    · rintro ⟨k, hk, h1, h2⟩
      refine ⟨k, hk, ?_⟩
      rcases hdir with ⟨hdr, hdc⟩ | hdr
      · rw [hdc, mul_one] at h2
        exact h2
      · rw [hdr, mul_one] at h1
        exact h1
    · rintro ⟨k, hk, h0⟩
      exact ⟨k, hk, by rw [h0, zero_mul], by rw [h0, zero_mul]⟩
  rw [intRange_map_sum]
  rw [← Finset.sum_product']
  have hsum1 : ∀ j ∈ Finset.range w,
      (fun t =>
        match windowCells size w idx dr dc t with
        | none => (0 : Int)
        | some ps => if (idx : Int) ∈ ps then scoreWindow board w idx ps else 0)
        (1 - (w : Int) + (j : Int)) =
      (if (∀ pr ∈ windowCoords size w idx dr dc (1 - (w : Int) + (j : Int)),
            0 ≤ pr.1 ∧ pr.1 < (size : Int) ∧ 0 ≤ pr.2 ∧ pr.2 < (size : Int)) ∧
          (∃ k : Nat, k < w ∧ (1 - (w : Int) + (j : Int)) + (k : Int) = 0)
       then scoreWindow board w idx
          ((windowCoords size w idx dr dc (1 - (w : Int) + (j : Int))).map
            (fun pr => pr.1 * (size : Int) + pr.2))
       else 0) := by
    intro j _
    simp only []
    rw [implWindowTerm_eq]
    refine if_congr (and_congr_right fun hb => ?_) rfl rfl
    rw [implCond_iff size w idx dr dc _ hs hb]
    exact hE _
  rw [Finset.sum_congr rfl hsum1]
  rw [← Finset.sum_filter, ← Finset.sum_filter]
  apply Finset.sum_nbij'
    (fun j : Nat =>
      ((((idx / size : Nat) : Int) + (1 - (w : Int) + (j : Int)) * dr).toNat,
       (((idx % size : Nat) : Int) + (1 - (w : Int) + (j : Int)) * dc).toNat))
    (fun p : Nat × Nat =>
      w - 1 - (if dr = 0 then idx % size - p.2 else idx / size - p.1))
  · -- the forward map sends an admissible offset to an admissible start
    intro j hj
    rw [Finset.mem_filter] at hj
    obtain ⟨hjr, hbound, -⟩ := hj
    rw [Finset.mem_range] at hjr
    have hb0 := (windowCoords_forall_iff size w idx dr dc
      (1 - (w : Int) + (j : Int)) _).mp hbound 0 (by omega)
    dsimp only at hb0
    simp only [Nat.cast_zero, add_zero] at hb0
    rw [Finset.mem_filter, Finset.mem_product, Finset.mem_range, Finset.mem_range]
    have hr : ((((idx / size : Nat) : Int) +
        (1 - (w : Int) + (j : Int)) * dr).toNat : Int) =
        ((idx / size : Nat) : Int) + (1 - (w : Int) + (j : Int)) * dr :=
      Int.toNat_of_nonneg hb0.1
    have hc : ((((idx % size : Nat) : Int) +
        (1 - (w : Int) + (j : Int)) * dc).toNat : Int) =
        ((idx % size : Nat) : Int) + (1 - (w : Int) + (j : Int)) * dc :=
      Int.toNat_of_nonneg hb0.2.2.1
    refine ⟨⟨?_, ?_⟩, ?_⟩
    · have := hb0.2.1
      omega
    · have := hb0.2.2.2
      omega
    · rw [refWindowOk_iff_t size w idx dr dc (1 - (w : Int) + (j : Int)) _ _ hr hc]
      refine ⟨hbound, (hE _).mpr ⟨w - 1 - j, by omega, by omega⟩⟩
  · -- the inverse map sends an admissible start to an admissible offset
    intro p hp
    rw [Finset.mem_filter, Finset.mem_product, Finset.mem_range, Finset.mem_range] at hp
    obtain ⟨⟨hp1, hp2⟩, hR⟩ := hp
    obtain ⟨hRb, k0, hk0, hk0r, hk0c⟩ := hR
    have hψ : (w - 1 - if dr = 0 then idx % size - p.2 else idx / size - p.1) =
        w - 1 - k0 := by
      rcases hdir with ⟨hdr0, hdc1⟩ | hdr1
      · rw [if_pos hdr0]
        rw [hdc1, mul_one] at hk0c
        omega
      · rw [if_neg (by omega)]
        rw [hdr1, mul_one] at hk0r
        omega
    rw [hψ]
    have hr : ((p.1 : Nat) : Int) =
        ((idx / size : Nat) : Int) + (-(k0 : Int)) * dr := by
      rw [neg_mul]
      omega
    have hc : ((p.2 : Nat) : Int) =
        ((idx % size : Nat) : Int) + (-(k0 : Int)) * dc := by
      rw [neg_mul]
      omega
    have hBE := (refWindowOk_iff_t size w idx dr dc (-(k0 : Int)) p.1 p.2 hr hc).mp
      ⟨hRb, k0, hk0, hk0r, hk0c⟩
    have ht : (1 : Int) - (w : Int) + ((w - 1 - k0 : Nat) : Int) = -(k0 : Int) := by
      omega
    rw [Finset.mem_filter, Finset.mem_range]
    refine ⟨by omega, ?_, ⟨k0, hk0, by omega⟩⟩
    rw [ht]
    exact hBE.1
  · -- left inverse
    intro j hj
    rw [Finset.mem_filter] at hj
    obtain ⟨hjr, hbound, -⟩ := hj
    rw [Finset.mem_range] at hjr
    have hb0 := (windowCoords_forall_iff size w idx dr dc
      (1 - (w : Int) + (j : Int)) _).mp hbound 0 (by omega)
    dsimp only at hb0
    simp only [Nat.cast_zero, add_zero] at hb0
    dsimp only
    rcases hdir with ⟨hdr0, hdc1⟩ | hdr1
    · rw [if_pos hdr0]
      rw [hdc1, mul_one] at hb0 ⊢
      have h1 := hb0.2.2.1
      omega
    · rw [if_neg (by omega)]
      rw [hdr1, mul_one] at hb0 ⊢
      have h1 := hb0.1
      omega
  · -- right inverse
    intro p hp
    rw [Finset.mem_filter, Finset.mem_product, Finset.mem_range, Finset.mem_range] at hp
    obtain ⟨⟨hp1, hp2⟩, hR⟩ := hp
    obtain ⟨hRb, k0, hk0, hk0r, hk0c⟩ := hR
    have hψ : (w - 1 - if dr = 0 then idx % size - p.2 else idx / size - p.1) =
        w - 1 - k0 := by
      rcases hdir with ⟨hdr0, hdc1⟩ | hdr1
      · rw [if_pos hdr0]
        rw [hdc1, mul_one] at hk0c
        omega
      · rw [if_neg (by omega)]
        rw [hdr1, mul_one] at hk0r
        omega
    rw [hψ]
    have ht : (1 : Int) - (w : Int) + ((w - 1 - k0 : Nat) : Int) = -(k0 : Int) := by
      omega
    rw [ht, neg_mul, neg_mul, Prod.ext_iff]
    constructor
    · dsimp only
      omega
    · dsimp only
      omega
  · -- values agree across the bijection
    intro j hj
    rw [Finset.mem_filter] at hj
    obtain ⟨hjr, hbound, -⟩ := hj
    rw [Finset.mem_range] at hjr
    have hb0 := (windowCoords_forall_iff size w idx dr dc
      (1 - (w : Int) + (j : Int)) _).mp hbound 0 (by omega)
    dsimp only at hb0
    simp only [Nat.cast_zero, add_zero] at hb0
    have hr : ((((idx / size : Nat) : Int) +
        (1 - (w : Int) + (j : Int)) * dr).toNat : Int) =
        ((idx / size : Nat) : Int) + (1 - (w : Int) + (j : Int)) * dr :=
      Int.toNat_of_nonneg hb0.1
    have hc : ((((idx % size : Nat) : Int) +
        (1 - (w : Int) + (j : Int)) * dc).toNat : Int) =
        ((idx % size : Nat) : Int) + (1 - (w : Int) + (j : Int)) * dc :=
      Int.toNat_of_nonneg hb0.2.2.1
    dsimp only
    rw [refWindowCells_eq size w idx dr dc (1 - (w : Int) + (j : Int)) _ _ hr hc]

theorem evaluateCell_eq_refScore (board : Board) (size w idx : Nat)
    (hs : 1 ≤ size) :
    evaluateCell board size w idx (getCenterIndex size) =
      refScore board size w idx := by
  unfold evaluateCell refScore
  rw [centerIndex_div size hs, centerIndex_mod size hs]
  simp only [List.map_cons, List.map_nil, List.sum_cons, List.sum_nil, add_zero]
  rw [dirTerm_eq_ref board size w idx 0 1 hs (Or.inl ⟨rfl, rfl⟩),
    dirTerm_eq_ref board size w idx 1 0 hs (Or.inr rfl),
    dirTerm_eq_ref board size w idx 1 1 hs (Or.inr rfl),
    dirTerm_eq_ref board size w idx 1 (-1) hs (Or.inr rfl)]
  simp only [List.mem_cons, List.not_mem_nil, or_false]

/-- C6: the scorer equals the spec's reference definition — center
proximity `max(0, 10 − manhattan)`, `aiCount²·25` (+200 one short of a
win) for opponent-free windows, `−oppCount²·20` (−150 one short) for the
rest, over every in-bounds window through the candidate in the four
directions, plus the corner bonus (15 when size = 3, else 5) — and in the
heuristic tier the selector returns the empty cell of strictly greatest
such score, keeping the lowest index on ties. -/
theorem heuristic_score_and_argmax (board : Board) (size w : Nat) (hs : 1 ≤ size)
    (hO : ∀ j, j < board.length → ¬ winsAt board size w Mark.O j)
    (hX : ∀ j, j < board.length → ¬ winsAt board size w Mark.X j)
    (i0 : Nat) (hi0 : i0 < board.length) (he : board.getD i0 none = none) :
    (∀ idx, evaluateCell board size w idx (getCenterIndex size) =
      refScore board size w idx) ∧
    ∃ b, getSmartAiMove board size w = some b ∧ b < board.length ∧
      board.getD b none = none ∧
      ∀ j, j < board.length → board.getD j none = none →
        (refScore board size w j ≤ refScore board size w b ∧
          (j < b → refScore board size w j < refScore board size w b)) := by
  refine ⟨fun idx => evaluateCell_eq_refScore board size w idx hs, ?_⟩
  have hfO := (findImmediateMove_eq_none_iff board size w Mark.O).mpr hO
  have hfX := (findImmediateMove_eq_none_iff board size w Mark.X).mpr hX
  cases hE : (List.range board.length).filter
      (fun i => decide (board.getD i none = none)) with
  | nil =>
      exfalso
      have hmem : i0 ∈ (List.range board.length).filter
          (fun i => decide (board.getD i none = none)) :=
        (mem_empty_filter_iff board i0).mpr ⟨hi0, he⟩
      rw [hE] at hmem
      simp at hmem
  | cons e0 rest =>
      have hpw : (e0 :: rest).Pairwise (· < ·) := by
        rw [← hE]
        exact (List.pairwise_lt_range board.length).filter _
      have hmemlist : ∀ x, x ∈ e0 :: rest ↔
          x < board.length ∧ board.getD x none = none := by
        intro x
        rw [← mem_empty_filter_iff board x, hE]
      have hgoal : getSmartAiMove board size w = some
          (bestFold (fun i => evaluateCell board size w i (getCenterIndex size))
            e0 rest).1 := by
        unfold getSmartAiMove
        rw [hfO, hfX]
        simp only [hE]
        rfl
      obtain ⟨hmem, hval, hbound⟩ := bestFold_spec
        (fun i => evaluateCell board size w i (getCenterIndex size)) rest e0 hpw
      refine ⟨_, hgoal, ((hmemlist _).mp hmem).1, ((hmemlist _).mp hmem).2, ?_⟩
      intro j hj hje
      have hjmem := (hmemlist j).mpr ⟨hj, hje⟩
      obtain ⟨hle, hlt⟩ := hbound j hjmem
      constructor
      · rw [← evaluateCell_eq_refScore board size w j hs,
          ← evaluateCell_eq_refScore board size w _ hs]
        exact hle
      · intro hjb
        rw [← evaluateCell_eq_refScore board size w j hs,
          ← evaluateCell_eq_refScore board size w _ hs]
        exact hlt hjb

/-- C6 witness: on the empty 3×3 board (no immediate win or block for
either mark) the scorer agrees with the reference score at cell 4. -/
theorem heuristic_score_and_argmax_witness :
    evaluateCell emptyBoard9 3 3 4 (getCenterIndex 3) =
      refScore emptyBoard9 3 3 4 :=
  (heuristic_score_and_argmax emptyBoard9 3 3 (by decide) (by decide) (by decide)
    0 (by decide) (by decide)).1 4
